import Mathlib

/-!
Shallow embedding of the XIPCompressor byte-pair compressor
(src/compressor.py) together with proofs about its claims.

Octets are modelled as `Nat` (well-formedness hypotheses `b < 256` are added
where a claim needs them).  Python `bytes` values become `List Nat`.  Python
`dict`s (which preserve insertion order and update values in place) become
insertion-ordered association lists maintained by `dictInsert`/`bump`.
Python exceptions (the TableExhausted `raise`, `UnboundLocalError` in
`__max_pair` on an empty dict, `IndexError` in `__reconstruct_dict`,
`OverflowError` in `int.to_bytes`, `RecursionError` in `__get_original`)
become `Option.none` results.
-/

namespace XIP

/-- A code table: the Python `dict` mapping a code octet to the pair of octets
it stands for, kept in insertion order (`self.__lookup_table`,
`reconstruction_dict`). -/
abbrev Table := List (Nat × Nat × Nat)

/-- The keys of a code table, in insertion order (Python `table.keys()`). -/
def keysOf (t : Table) : List Nat := t.map (·.1)

/-- Python `len(set(raw))` at compressor.py line 45: the number of distinct
octet values of a byte string. -/
def distinctCount (l : List Nat) : Nat := l.dedup.length

/-- Python dict assignment `t[k] = v`: if the key exists, its value is updated
in place (position in insertion order preserved); otherwise the binding is
appended at the end. -/
def dictInsert (t : Table) (k : Nat) (v : Nat × Nat) : Table :=
  if k ∈ keysOf t then t.map (fun e => if e.1 = k then (k, v) else e)
  else t ++ [(k, v)]

/-- Python dict lookup `t[b]` combined with the `b in t.keys()` test:
the value bound to the first (and in our tables only) entry with key `b`. -/
def lookup (t : Table) (b : Nat) : Option (Nat × Nat) :=
  (t.find? (fun e => decide (e.1 = b))).map (fun e => e.2)

/-- Embedding of `__get_replacement` (compressor.py lines 32-60).  The source
raises when `len(table) == 256 - unique_byte_count` and otherwise draws random
octets, rejecting any octet that is a table key or occurs in the original
input.  Rejection sampling over a terminating draw is modelled by the
deterministic choice of the least admissible octet (which admissible octet is
produced is not observable by any claim); a run in which no admissible octet
exists (so the source would recurse forever) is also modelled as `none`,
a state unreachable during compression. -/
def getReplacement (t : Table) (raw : List Nat) : Option Nat :=
  if t.length = 256 - distinctCount raw then none
  else (List.range 256).find? (fun b => !(decide (b ∈ keysOf t)) && !(decide (b ∈ raw)))

/-- The successive overlapping adjacent pairs `(data[i], data[i+1])` scanned by
the frequency loop at compressor.py lines 153-163. -/
def adjPairs : List Nat → List (Nat × Nat)
  | a :: b :: rest => (a, b) :: adjPairs (b :: rest)
  | _ => []

/-- One step of building the pair-frequency dict (compressor.py lines 159-163):
`pairs[pair] += 1` if present, else `pairs[pair] = 1`. -/
def bump (d : List ((Nat × Nat) × Nat)) (p : Nat × Nat) : List ((Nat × Nat) × Nat) :=
  if p ∈ d.map (·.1) then d.map (fun e => if e.1 = p then (e.1, e.2 + 1) else e)
  else d ++ [(p, 1)]

/-- The pair-frequency dict built by the loop at compressor.py lines 150-163,
keys in first-occurrence order. -/
def pairFreqs (buf : List Nat) : List ((Nat × Nat) × Nat) :=
  (adjPairs buf).foldl bump []

/-- The scan of `__max_pair` (compressor.py lines 95-101): running best pair
(`max_pair`, unassigned at the start, hence `Option`) and running maximum
frequency (`max_freq`, starting at 0), updated on a non-strict `freq >= max_freq`
comparison. -/
def maxPairLoop : List ((Nat × Nat) × Nat) → Option (Nat × Nat) → Nat →
    Option (Nat × Nat) × Nat
  | [], mp, mf => (mp, mf)
  | (k, fr) :: rest, mp, mf =>
    if mf ≤ fr then maxPairLoop rest (some k) fr else maxPairLoop rest mp mf

/-- Embedding of `__max_pair` (compressor.py lines 84-102).  On an empty dict
the source returns the unassigned local `max_pair` and raises
`UnboundLocalError`, modelled as `none`. -/
def maxPair (d : List ((Nat × Nat) × Nat)) : Option ((Nat × Nat) × Nat) :=
  match maxPairLoop d none 0 with
  | (some p, mf) => some (p, mf)
  | (none, _) => none

/-- Python `bytes.replace(pair, replacement)` for a 2-byte pattern and a 1-byte
replacement (compressor.py lines 177-179): a single left-to-right scan that,
after consuming a match, resumes immediately after it. -/
def replacePair (p : Nat × Nat) (r : Nat) : List Nat → List Nat
  | a :: b :: rest =>
    if a = p.1 ∧ b = p.2 then r :: replacePair p r rest
    else a :: replacePair p r (b :: rest)
  | l => l

/-- Embedding of `__get_original` (compressor.py lines 62-82): recursively
expand an octet through the table.  The source recurses without a bound and
diverges into `RecursionError` on a cyclic table; the fuel models that and is
instantiated at 256 by the decoder, enough for every acyclic octet table. -/
def get_original : Nat → Nat → Table → Option (List Nat)
  | 0, _, _ => none
  | fuel + 1, b, table =>
    match lookup table b with
    | some c =>
      (get_original fuel c.1 table).bind (fun l1 =>
        (get_original fuel c.2 table).map (fun l2 => l1 ++ l2))
    | none => some [b]

/-- The main loop of `compress_binary` (compressor.py lines 149-180), with the
working buffer, the lookup table and `last_pair_frequency` as explicit state.
The body first builds the pair-frequency dict, then asks the allocator
(a failure is caught: `break` with the state of the previous iteration, the
fresh frequency dict discarded), then takes the arg-max (an empty dict crashes
the call: `none`), then inserts into the table and substitutes in the buffer.
The fuel only bounds the recursion depth of the embedding; `compress_binary`
passes enough for the loop, which adds a table entry per iteration and shrinks
the buffer, never to exhaust it. -/
def compressLoop (raw : List Nat) : Nat → List Nat → Table → Nat →
    Option (List Nat × Table)
  | 0, _, _, _ => none
  | fuel + 1, buf, t, lastFreq =>
    if lastFreq = 1 then some (buf, t)
    else
      match getReplacement t raw with
      | none => some (buf, t)
      | some r =>
        match maxPair (pairFreqs buf) with
        | none => none
        | some (p, f) => compressLoop raw fuel (replacePair p r buf) (dictInsert t r p) f

/-- Working buffer and lookup table at the end of the loop of
`compress_binary`, starting from lookup-table state `t0` (the state the
`self.__lookup_table` instance field holds when the call begins: `[]` on a
fresh instance, the previous call's final table on a reused one, since
`compress_binary` never resets the field). -/
def compressStateFrom (t0 : Table) (raw : List Nat) : Option (List Nat × Table) :=
  compressLoop raw (raw.length + 2) raw t0 0

/-- The trailer serialization of compressor.py lines 186-187: for every table
entry in insertion order, `key + value`, three octets per entry. -/
def serializeEntries (t : Table) : List Nat :=
  t.flatMap (fun e => [e.1, e.2.1, e.2.2])

/-- Output assembly of compressor.py lines 182-189:
`len(table).to_bytes() + compressed_data + trailer`.  `int.to_bytes()` to a
single octet raises `OverflowError` for a count above 255, modelled as
`none`. -/
def serializeState (buf : List Nat) (t : Table) : Option (List Nat) :=
  if t.length ≥ 256 then none
  else some (t.length :: buf ++ serializeEntries t)

/-- `compress_binary` (compressor.py lines 126-189) on the raw input bytes,
starting from lookup-table state `t0`. -/
def compress_binary_from (t0 : Table) (raw : List Nat) : Option (List Nat) :=
  match compressStateFrom t0 raw with
  | none => none
  | some (buf, t) => serializeState buf t

/-- `compress_binary` on a fresh compressor instance (empty lookup table). -/
def compress_binary (raw : List Nat) : Option (List Nat) :=
  compress_binary_from [] raw

/-- The record parsing loop of `__reconstruct_dict` (compressor.py lines
119-122): read `n` consecutive 3-octet records `[code, c0, c1]` into the dict;
running out of octets is the source's `IndexError`. -/
def parseTable : Nat → List Nat → Table → Option Table
  | 0, _, acc => some acc
  | n + 1, c0 :: c1 :: c2 :: rest, acc => parseTable n rest (dictInsert acc c0 (c1, c2))
  | _ + 1, _, _ => none

/-- Embedding of `__reconstruct_dict` (compressor.py lines 104-124):
`byte_len = data[0]` (an empty artifact raises `IndexError`), then the trailer
chunk `data[-3*byte_len:]` is parsed.  Python's negative slice is the last
`min(3*byte_len, len(data))` octets; for `byte_len = 0` the Python slice
`data[-0:]` is the whole artifact, but the parse loop then reads nothing, so
the empty chunk used here yields the same table. -/
def reconstruct_dict (data : List Nat) : Option Table :=
  match data with
  | [] => none
  | byteLen :: _ => parseTable byteLen (data.drop (data.length - 3 * byteLen)) []

/-- The decompression loop of compressor.py lines 210-213: concatenate, in
order, the recursive expansion of every payload octet. -/
def expandPayload (t : Table) : List Nat → Option (List Nat)
  | [] => some []
  | b :: rest =>
    (get_original 256 b t).bind (fun l => (expandPayload t rest).map (fun r => l ++ r))

/-- `decompress_binary` (compressor.py lines 191-215): reconstruct the dict,
set `data_len = len(data) - 3 * len(dict)` (note: the size of the
reconstructed dict, not the count octet), and expand `data[i]` for
`i in range(1, data_len)`. -/
def decompress_binary (data : List Nat) : Option (List Nat) :=
  match reconstruct_dict data with
  | none => none
  | some table =>
    expandPayload table ((data.take (data.length - 3 * table.length)).drop 1)

/-- First-occurrence deduplication: the iteration order of a Python dict whose
keys were inserted in scan order.  Used to state in which order `__max_pair`
visits the pairs. -/
def dedupFirst : List (Nat × Nat) → List (Nat × Nat)
  | [] => []
  | a :: rest => a :: dedupFirst (rest.filter (fun x => x ≠ a))
termination_by l => l.length
decreasing_by
  simp only [List.length_cons]
  exact Nat.lt_succ_of_le (List.length_filter_le _ _)

/-- The maximum frequency occurring in a pair-frequency dict (0 when empty),
the value `max_freq` holds when the scan of `__max_pair` ends. -/
def maxCount (d : List ((Nat × Nat) × Nat)) : Nat :=
  d.foldl (fun m e => max m e.2) 0

/-- The working-buffer invariant of the encoder loop: every octet of the
working buffer is an octet of the original raw input or a key of the current
lookup table. -/
def BufInv (raw buf : List Nat) (t : Table) : Prop :=
  ∀ b ∈ buf, b ∈ raw ∨ b ∈ keysOf t

/-- The full invariant the encoder loop maintains for the proof of the round
trip: the table keys are distinct octets that do not occur in the raw input,
the table leaves room inside the 256-value octet space, and every octet of the
working buffer expands (with fuel one more than the table size) to a list of
raw-input octets, the expansions concatenating, in buffer order, to exactly
the raw input. -/
def Inv (raw buf : List Nat) (t : Table) : Prop :=
  (keysOf t).Nodup ∧
  (∀ k ∈ keysOf t, k ∉ raw ∧ k < 256) ∧
  t.length + distinctCount raw ≤ 256 ∧
  (∀ b ∈ buf, ∃ l, get_original (t.length + 1) b t = some l ∧ ∀ x ∈ l, x ∈ raw) ∧
  (buf.map (fun b => (get_original (t.length + 1) b t).getD [])).flatten = raw

/-! ### Lookup lemmas -/

lemma find?_append_some {α : Type} {q : α → Bool} :
    ∀ {l1 : List α} (l2 : List α) {e : α}, l1.find? q = some e →
      (l1 ++ l2).find? q = some e := by
  intro l1
  induction l1 with
  | nil => intro l2 e h; simp [List.find?] at h
  | cons a l1 ih =>
    intro l2 e h
    cases hqa : q a with
    | true =>
      rw [List.find?_cons_of_pos _ hqa] at h
      rw [List.cons_append, List.find?_cons_of_pos _ hqa]
      exact h
    | false =>
      rw [List.find?_cons_of_neg _ (by simp [hqa])] at h
      rw [List.cons_append, List.find?_cons_of_neg _ (by simp [hqa])]
      exact ih l2 h

lemma find?_append_none {α : Type} {q : α → Bool} :
    ∀ {l1 : List α} (l2 : List α), l1.find? q = none →
      (l1 ++ l2).find? q = l2.find? q := by
  intro l1
  induction l1 with
  | nil => intro l2 _; rfl
  | cons a l1 ih =>
    intro l2 h
    cases hqa : q a with
    | true => rw [List.find?_cons_of_pos _ hqa] at h; exact absurd h (by simp)
    | false =>
      rw [List.find?_cons_of_neg _ (by simp [hqa])] at h
      rw [List.cons_append, List.find?_cons_of_neg _ (by simp [hqa])]
      exact ih l2 h

lemma mem_keysOf {t : Table} {b : Nat} : b ∈ keysOf t ↔ ∃ e ∈ t, e.1 = b := by
  simp [keysOf, List.mem_map]

lemma lookup_eq_none {t : Table} {b : Nat} : lookup t b = none ↔ b ∉ keysOf t := by
  simp only [lookup, Option.map_eq_none', List.find?_eq_none, decide_eq_true_eq,
    mem_keysOf, not_exists, not_and]

lemma lookup_append_some {t : Table} {b : Nat} {v : Nat × Nat} (s : Table)
    (h : lookup t b = some v) : lookup (t ++ s) b = some v := by
  simp only [lookup, Option.map_eq_some'] at h ⊢
  obtain ⟨e, he, hv⟩ := h
  exact ⟨e, find?_append_some s he, hv⟩

lemma lookup_append_self {t : Table} {b : Nat} (v : Nat × Nat)
    (h : b ∉ keysOf t) : lookup (t ++ [(b, v)]) b = some v := by
  have hn : t.find? (fun e => decide (e.1 = b)) = none := by
    have := lookup_eq_none.mpr h
    simpa only [lookup, Option.map_eq_none'] using this
  simp [lookup, find?_append_none _ hn]

lemma lookup_append_ne {t : Table} {b r : Nat} (v : Nat × Nat)
    (h : lookup t b = none) (hne : b ≠ r) : lookup (t ++ [(r, v)]) b = none := by
  have hn : t.find? (fun e => decide (e.1 = b)) = none := by
    simpa only [lookup, Option.map_eq_none'] using h
  simp [lookup, find?_append_none _ hn, Ne.symm hne]

/-! ### Expansion (`__get_original`) lemmas -/

lemma go_succ_none {f b : Nat} {t : Table} (h : lookup t b = none) :
    get_original (f + 1) b t = some [b] := by
  rw [get_original, h]

lemma go_succ_some {f b : Nat} {t : Table} {c : Nat × Nat} (h : lookup t b = some c) :
    get_original (f + 1) b t =
      (get_original f c.1 t).bind (fun l1 =>
        (get_original f c.2 t).map (fun l2 => l1 ++ l2)) := by
  rw [get_original, h]

lemma go_mono : ∀ {fuel fuel' b : Nat} {t : Table} {l : List Nat},
    get_original fuel b t = some l → fuel ≤ fuel' → get_original fuel' b t = some l := by
  intro fuel
  induction fuel with
  | zero => intro fuel' b t l h _; simp [get_original] at h
  | succ f ih =>
    intro fuel' b t l h hle
    cases fuel' with
    | zero => omega
    | succ f' =>
      have hff : f ≤ f' := Nat.le_of_succ_le_succ hle
      cases hlk : lookup t b with
      | none => rw [go_succ_none hlk] at h; rw [go_succ_none hlk]; exact h
      | some c =>
        rw [go_succ_some hlk] at h
        rw [go_succ_some hlk]
        obtain ⟨l1, h1, hmap⟩ := Option.bind_eq_some.mp h
        obtain ⟨l2, h2, hl⟩ := Option.map_eq_some'.mp hmap
        rw [ih h1 hff, ih h2 hff]
        simp [hl]

lemma go_extend {r : Nat} {v : Nat × Nat} :
    ∀ {fuel b : Nat} {t : Table} {l : List Nat},
      get_original fuel b t = some l → r ∉ keysOf t → r ∉ l →
      get_original fuel b (t ++ [(r, v)]) = some l := by
  intro fuel
  induction fuel with
  | zero => intro b t l h _ _; simp [get_original] at h
  | succ f ih =>
    intro b t l h hkey hl
    cases hlk : lookup t b with
    | none =>
      rw [go_succ_none hlk] at h
      have hbl : l = [b] := by simpa using h.symm
      have hbr : b ≠ r := by
        intro hbr
        exact hl (by simp [hbl, hbr])
      rw [go_succ_none (lookup_append_ne v hlk hbr)]
      exact h
    | some c =>
      rw [go_succ_some hlk] at h
      rw [go_succ_some (lookup_append_some [(r, v)] hlk)]
      obtain ⟨l1, h1, hmap⟩ := Option.bind_eq_some.mp h
      obtain ⟨l2, h2, hleq⟩ := Option.map_eq_some'.mp hmap
      have hr1 : r ∉ l1 := fun hx => hl (by simp [← hleq, hx])
      have hr2 : r ∉ l2 := fun hx => hl (by simp [← hleq, hx])
      rw [ih h1 hkey hr1, ih h2 hkey hr2]
      simp [hleq]

/-! ### Substitution (`bytes.replace`) lemmas -/

lemma replacePair_mem {p : Nat × Nat} {r : Nat} :
    ∀ {l : List Nat} {x : Nat}, x ∈ replacePair p r l → x = r ∨ x ∈ l := by
  intro l
  induction l using replacePair.induct p r with
  | case1 a b rest hc ih =>
    intro x hx
    rw [replacePair, if_pos hc] at hx
    rcases List.mem_cons.mp hx with hxr | hx
    · exact Or.inl hxr
    · rcases ih hx with hxr | hx
      · exact Or.inl hxr
      · exact Or.inr (by simp [hx])
  | case2 a b rest hc ih =>
    intro x hx
    rw [replacePair, if_neg hc] at hx
    rcases List.mem_cons.mp hx with hxa | hx
    · exact Or.inr (by simp [hxa])
    · rcases ih hx with hxr | hx
      · exact Or.inl hxr
      · exact Or.inr (by simp [List.mem_cons.mp hx])
  | case3 l h1 =>
    intro x hx
    rw [replacePair.eq_def] at hx
    cases l with
    | nil => simp at hx
    | cons a tl =>
      cases tl with
      | nil => exact Or.inr hx
      | cons b rest => exact absurd rfl (h1 a b rest)

lemma join_map_replacePair {E : Nat → List Nat} {p : Nat × Nat} {r : Nat}
    (hE : E r = E p.1 ++ E p.2) :
    ∀ l : List Nat, ((replacePair p r l).map E).flatten = (l.map E).flatten := by
  intro l
  induction l using replacePair.induct p r with
  | case1 a b rest hc ih =>
    rw [replacePair, if_pos hc]
    simp only [List.map_cons, List.flatten_cons, ih, hE, hc.1, hc.2]
    simp [List.append_assoc]
  | case2 a b rest hc ih =>
    rw [replacePair, if_neg hc]
    simp only [List.map_cons, List.flatten_cons, ih]
  | case3 l h1 =>
    rw [replacePair.eq_def]
    cases l with
    | nil => rfl
    | cons a tl =>
      cases tl with
      | nil => rfl
      | cons b rest => exact absurd rfl (h1 a b rest)

/-! ### Dict and pair-frequency lemmas -/

lemma map_congr_mem {α β : Type} {f g : α → β} :
    ∀ {l : List α}, (∀ a ∈ l, f a = g a) → l.map f = l.map g := by
  intro l
  induction l with
  | nil => intro _; rfl
  | cons a l ih =>
    intro h
    simp only [List.map_cons, h a (by simp), ih fun x hx => h x (by simp [hx])]

lemma keysOf_append {t s : Table} : keysOf (t ++ s) = keysOf t ++ keysOf s := by
  simp [keysOf]

lemma dictInsert_of_fresh {t : Table} {k : Nat} {v : Nat × Nat} (h : k ∉ keysOf t) :
    dictInsert t k v = t ++ [(k, v)] := by
  simp [dictInsert, h]

lemma adjPairs_mem : ∀ {l : List Nat} {x y : Nat},
    (x, y) ∈ adjPairs l → x ∈ l ∧ y ∈ l := by
  intro l
  induction l using adjPairs.induct with
  | case1 a b rest ih =>
    intro x y h
    rw [adjPairs] at h
    rcases List.mem_cons.mp h with hxy | h
    · obtain ⟨rfl, rfl⟩ : x = a ∧ y = b := by simpa using hxy
      exact ⟨by simp, by simp⟩
    · obtain ⟨hx, hy⟩ := ih h
      exact ⟨List.mem_cons_of_mem _ hx, List.mem_cons_of_mem _ hy⟩
  | case2 l h1 =>
    intro x y h
    rw [adjPairs.eq_def] at h
    cases l with
    | nil => simp at h
    | cons a tl =>
      cases tl with
      | nil => simp at h
      | cons b rest => exact absurd rfl (h1 a b rest)

lemma bump_keys {d : List ((Nat × Nat) × Nat)} {p : Nat × Nat} :
    (bump d p).map (·.1) =
      if p ∈ d.map (·.1) then d.map (·.1) else d.map (·.1) ++ [p] := by
  by_cases h : p ∈ d.map (·.1)
  · rw [bump, if_pos h, if_pos h, List.map_map]
    refine map_congr_mem ?_
    intro e _
    by_cases he : e.1 = p <;> simp [he]
  · rw [bump, if_neg h, if_neg h]
    simp

lemma foldl_bump_keys_subset :
    ∀ (ps : List (Nat × Nat)) (d : List ((Nat × Nat) × Nat)),
      ∀ x ∈ (ps.foldl bump d).map (·.1), x ∈ d.map (·.1) ++ ps := by
  intro ps
  induction ps with
  | nil => intro d x hx; simpa using hx
  | cons p ps ih =>
    intro d x hx
    have hstep := ih (bump d p) x (by simpa using hx)
    rw [bump_keys] at hstep
    by_cases h : p ∈ d.map (·.1)
    · rw [if_pos h] at hstep
      rcases List.mem_append.mp hstep with h1 | h1
      · exact List.mem_append.mpr (Or.inl h1)
      · exact List.mem_append.mpr (Or.inr (List.mem_cons_of_mem _ h1))
    · rw [if_neg h] at hstep
      rcases List.mem_append.mp hstep with h1 | h1
      · rcases List.mem_append.mp h1 with h2 | h2
        · exact List.mem_append.mpr (Or.inl h2)
        · simp only [List.mem_singleton] at h2
          exact List.mem_append.mpr (Or.inr (by simp [h2]))
      · exact List.mem_append.mpr (Or.inr (List.mem_cons_of_mem _ h1))

lemma mem_dedupFirst : ∀ {l : List (Nat × Nat)} {x : Nat × Nat},
    x ∈ dedupFirst l ↔ x ∈ l := by
  intro l
  induction l using dedupFirst.induct with
  | case1 => simp [dedupFirst]
  | case2 a rest ih =>
    intro x
    rw [dedupFirst]
    simp only [List.mem_cons, ih]
    constructor
    · rintro (rfl | hx)
      · exact Or.inl rfl
      · exact Or.inr (List.mem_filter.mp hx).1
    · rintro (rfl | hx)
      · exact Or.inl rfl
      · by_cases hxa : x = a
        · exact Or.inl hxa
        · exact Or.inr (List.mem_filter.mpr ⟨hx, by simp [hxa]⟩)

lemma dedupFirst_append_singleton (p : Nat × Nat) :
    ∀ l : List (Nat × Nat), dedupFirst (l ++ [p]) =
      if p ∈ l then dedupFirst l else dedupFirst l ++ [p] := by
  intro l
  induction l using dedupFirst.induct with
  | case1 => simp [dedupFirst]
  | case2 a rest ih =>
    rw [List.cons_append, dedupFirst, List.filter_append]
    by_cases hpa : p = a
    · subst hpa
      have hfp : ([p].filter (fun x => decide (x ≠ p))) = [] := by simp
      rw [hfp, List.append_nil]
      have hmem : p ∈ p :: rest := by simp
      rw [if_pos hmem, dedupFirst]
    · have hfp : ([p].filter (fun x => decide (x ≠ a))) = [p] := by simp [hpa]
      rw [hfp, ih]
      by_cases hp : p ∈ rest
      · have hmem : p ∈ rest.filter (fun x => decide (x ≠ a)) :=
          List.mem_filter.mpr ⟨hp, by simp [hpa]⟩
        rw [if_pos hmem, if_pos (by simp [hp] : p ∈ a :: rest), dedupFirst]
      · have hmem : p ∉ rest.filter (fun x => decide (x ≠ a)) :=
          fun hx => hp (List.mem_filter.mp hx).1
        rw [if_neg hmem, if_neg (by simp [hpa, hp] : p ∉ a :: rest), dedupFirst]
        simp

lemma pairFreqs_spec (buf : List Nat) :
    (pairFreqs buf).map (·.1) = dedupFirst (adjPairs buf) ∧
    ∀ e ∈ pairFreqs buf, e.2 = (adjPairs buf).count e.1 := by
  suffices h : ∀ (ps seen : List (Nat × Nat)) (d : List ((Nat × Nat) × Nat)),
      d.map (·.1) = dedupFirst seen → (∀ e ∈ d, e.2 = seen.count e.1) →
      (ps.foldl bump d).map (·.1) = dedupFirst (seen ++ ps) ∧
        ∀ e ∈ ps.foldl bump d, e.2 = (seen ++ ps).count e.1 by
    have := h (adjPairs buf) [] [] (by simp [dedupFirst]) (by simp)
    rw [List.nil_append] at this
    exact this
  intro ps
  induction ps with
  | nil =>
    intro seen d h1 h2
    rw [List.foldl_nil, List.append_nil]
    exact ⟨h1, h2⟩
  | cons p ps ih =>
    intro seen d h1 h2
    have hiff : p ∈ d.map (·.1) ↔ p ∈ seen := by rw [h1]; exact mem_dedupFirst
    have step1 : (bump d p).map (·.1) = dedupFirst (seen ++ [p]) := by
      rw [bump_keys, dedupFirst_append_singleton]
      by_cases h : p ∈ d.map (·.1)
      · rw [if_pos h, if_pos (hiff.mp h), h1]
      · rw [if_neg h, if_neg (fun hs => h (hiff.mpr hs)), h1]
    have step2 : ∀ e ∈ bump d p, e.2 = (seen ++ [p]).count e.1 := by
      intro e he
      rw [bump] at he
      by_cases h : p ∈ d.map (·.1)
      · rw [if_pos h] at he
        obtain ⟨e0, he0, rfl⟩ := List.mem_map.mp he
        by_cases h0 : e0.1 = p
        · simp only [if_pos h0]
          rw [List.count_append, ← h2 e0 he0]
          simp [h0]
        · simp only [if_neg h0]
          rw [List.count_append, ← h2 e0 he0]
          simp [h0]
      · rw [if_neg h] at he
        rcases List.mem_append.mp he with he0 | he0
        · have hne : e.1 ≠ p := by
            intro hep
            exact h (hep ▸ List.mem_map.mpr ⟨e, he0, rfl⟩)
          rw [List.count_append, ← h2 e he0]
          simp [hne]
        · simp only [List.mem_singleton] at he0
          subst he0
          have hps : p ∉ seen := fun hs => h (hiff.mpr hs)
          rw [List.count_append, List.count_eq_zero.mpr hps]
          simp
    have := ih (seen ++ [p]) (bump d p) step1 step2
    rw [List.foldl_cons]
    have heq : (seen ++ [p]) ++ ps = seen ++ p :: ps := by simp
    rw [← heq]
    exact this

/-! ### Arg-max (`__max_pair`) lemmas -/

lemma maxPairLoop_mem : ∀ (d : List ((Nat × Nat) × Nat)) (mp : Option (Nat × Nat))
    (mf : Nat) {k : Nat × Nat} {fr : Nat}, maxPairLoop d mp mf = (some k, fr) →
    (mp = some k ∧ mf = fr) ∨ (k, fr) ∈ d := by
  intro d
  induction d with
  | nil =>
    intro mp mf k fr h
    simp only [maxPairLoop, Prod.mk.injEq] at h
    exact Or.inl h
  | cons e rest ih =>
    intro mp mf k fr h
    obtain ⟨ek, efr⟩ := e
    rw [maxPairLoop] at h
    by_cases hc : mf ≤ efr
    · rw [if_pos hc] at h
      rcases ih _ _ h with ⟨h1, h2⟩ | h2
      · obtain rfl : ek = k := by simpa using h1
        exact Or.inr (by simp [h2])
      · exact Or.inr (List.mem_cons_of_mem _ h2)
    · rw [if_neg hc] at h
      rcases ih _ _ h with h1 | h2
      · exact Or.inl h1
      · exact Or.inr (List.mem_cons_of_mem _ h2)

lemma maxPair_mem {d : List ((Nat × Nat) × Nat)} {p : Nat × Nat} {f : Nat}
    (h : maxPair d = some (p, f)) : (p, f) ∈ d := by
  unfold maxPair at h
  cases hml : maxPairLoop d none 0 with
  | mk mp mf =>
    rw [hml] at h
    cases mp with
    | none => simp at h
    | some q =>
      obtain ⟨rfl, rfl⟩ : q = p ∧ mf = f := by simpa using h
      rcases maxPairLoop_mem d none 0 hml with ⟨h1, _⟩ | h2
      · simp at h1
      · exact h2

lemma maxPairLoop_append : ∀ (d : List ((Nat × Nat) × Nat)) (e : (Nat × Nat) × Nat)
    (mp : Option (Nat × Nat)) (mf : Nat),
    maxPairLoop (d ++ [e]) mp mf =
      if (maxPairLoop d mp mf).2 ≤ e.2 then (some e.1, e.2) else maxPairLoop d mp mf := by
  intro d
  induction d with
  | nil =>
    intro e mp mf
    obtain ⟨ek, efr⟩ := e
    by_cases hc : mf ≤ efr <;> simp [maxPairLoop, hc]
  | cons a rest ih =>
    intro e mp mf
    obtain ⟨ak, afr⟩ := a
    simp only [List.cons_append, maxPairLoop]
    by_cases hc : mf ≤ afr
    · rw [if_pos hc, if_pos hc]; exact ih e _ _
    · rw [if_neg hc, if_neg hc]; exact ih e _ _

lemma maxPairLoop_snd : ∀ (d : List ((Nat × Nat) × Nat)) (mp : Option (Nat × Nat))
    (mf : Nat), (maxPairLoop d mp mf).2 = d.foldl (fun m e => max m e.2) mf := by
  intro d
  induction d with
  | nil => intro mp mf; rfl
  | cons a rest ih =>
    intro mp mf
    obtain ⟨ak, afr⟩ := a
    rw [maxPairLoop, List.foldl_cons]
    by_cases hc : mf ≤ afr
    · rw [if_pos hc, ih]
      have : max mf afr = afr := max_eq_right hc
      rw [this]
    · rw [if_neg hc, ih]
      have : max mf afr = mf := max_eq_left (le_of_lt (lt_of_not_ge hc))
      rw [this]

lemma maxCount_append_singleton {d : List ((Nat × Nat) × Nat)} {e : (Nat × Nat) × Nat} :
    maxCount (d ++ [e]) = max (maxCount d) e.2 := by
  simp [maxCount, List.foldl_append]

lemma get_append_length {α : Type} :
    ∀ (l : List α) (a : α) (h : l.length < (l ++ [a]).length),
      (l ++ [a]).get ⟨l.length, h⟩ = a := by
  intro l a
  induction l with
  | nil => intro h; rfl
  | cons x l ih => intro h; exact ih (by simp)

lemma maxPair_char : ∀ {d : List ((Nat × Nat) × Nat)} {p : Nat × Nat} {f : Nat},
    maxPair d = some (p, f) →
    f = maxCount d ∧ ∃ i, ∃ hi : i < d.length, d.get ⟨i, hi⟩ = (p, f) ∧
      ∀ j, ∀ hj : j < d.length, i < j → (d.get ⟨j, hj⟩).2 < f := by
  intro d
  induction d using List.reverseRecOn with
  | nil => intro p f h; simp [maxPair, maxPairLoop] at h
  | append_singleton d e ih =>
    intro p f h
    unfold maxPair at h
    rw [maxPairLoop_append] at h
    have hsnd : (maxPairLoop d none 0).2 = maxCount d := maxPairLoop_snd d none 0
    by_cases hc : (maxPairLoop d none 0).2 ≤ e.2
    · rw [if_pos hc] at h
      have he : e = (p, f) := by simpa using h
      subst he
      refine ⟨?_, d.length, by simp, ?_, ?_⟩
      · rw [maxCount_append_singleton, max_eq_right (hsnd ▸ hc)]
      · exact get_append_length d (p, f) _
      · intro j hj hij
        simp only [List.length_append, List.length_singleton] at hj
        omega
    · rw [if_neg hc] at h
      have hd : maxPair d = some (p, f) := by unfold maxPair; exact h
      obtain ⟨hf, i, hi, hget, hlt⟩ := ih hd
      have he2 : e.2 < f := by
        have := lt_of_not_ge hc
        rw [hsnd] at this
        omega
      refine ⟨?_, i, by simp; omega, ?_, ?_⟩
      · rw [maxCount_append_singleton, max_eq_left (by omega)]
        exact hf
      · rw [List.get_append _ hi]
        exact hget
      · intro j hj hij
        simp only [List.length_append, List.length_singleton] at hj
        by_cases hjd : j < d.length
        · rw [List.get_append _ hjd]
          exact hlt j hjd hij
        · have hje : j = d.length := by omega
          subst hje
          rw [get_append_length d e _]
          exact he2

/-! ### Serialization and trailer-parsing lemmas -/

lemma serializeEntries_cons {e : Nat × Nat × Nat} {t : Table} :
    serializeEntries (e :: t) = e.1 :: e.2.1 :: e.2.2 :: serializeEntries t := by
  simp [serializeEntries]

lemma length_serializeEntries : ∀ t : Table, (serializeEntries t).length = 3 * t.length := by
  intro t
  induction t with
  | nil => rfl
  | cons e t ih =>
    rw [serializeEntries_cons]
    simp only [List.length_cons, ih]
    omega

lemma parseTable_serialize : ∀ (t acc : Table), (keysOf (acc ++ t)).Nodup →
    parseTable t.length (serializeEntries t) acc = some (acc ++ t) := by
  intro t
  induction t with
  | nil => intro acc _; simp [parseTable, serializeEntries]
  | cons e t ih =>
    intro acc hnd
    rw [serializeEntries_cons, List.length_cons, parseTable]
    have hfresh : e.1 ∉ keysOf acc := by
      rw [keysOf_append] at hnd
      have hdisj := (List.nodup_append.mp hnd).2.2
      intro hmem
      exact hdisj hmem (by simp [keysOf])
    have hdi : dictInsert acc e.1 (e.2.1, e.2.2) = acc ++ [e] := by
      rw [dictInsert_of_fresh hfresh]
    have hnd' : (keysOf ((acc ++ [e]) ++ t)).Nodup := by
      rw [List.append_assoc]
      simpa using hnd
    rw [hdi, ih (acc ++ [e]) hnd']
    simp

lemma parseTable_none_of_short : ∀ (n : Nat) (chunk : List Nat) (acc : Table),
    chunk.length < 3 * n → parseTable n chunk acc = none := by
  intro n
  induction n with
  | zero => intro chunk acc h; omega
  | succ n ih =>
    intro chunk acc h
    match chunk with
    | [] => rfl
    | [c0] => rfl
    | [c0, c1] => rfl
    | c0 :: c1 :: c2 :: rest =>
      rw [parseTable]
      refine ih rest _ ?_
      simp only [List.length_cons] at h
      omega

lemma parseTable_isSome_of_length : ∀ (n : Nat) (chunk : List Nat) (acc : Table),
    chunk.length = 3 * n → (parseTable n chunk acc).isSome := by
  intro n
  induction n with
  | zero => intro chunk acc _; rfl
  | succ n ih =>
    intro chunk acc h
    match chunk with
    | [] => simp at h
    | [c0] => simp at h; omega
    | [c0, c1] => simp at h; omega
    | c0 :: c1 :: c2 :: rest =>
      rw [parseTable]
      refine ih rest _ ?_
      simp only [List.length_cons] at h
      omega

/-! ### Allocator lemmas -/

lemma getReplacement_some_spec {t : Table} {raw : List Nat} {r : Nat}
    (h : getReplacement t raw = some r) :
    r ∉ keysOf t ∧ r ∉ raw ∧ r < 256 ∧ t.length ≠ 256 - distinctCount raw := by
  rw [getReplacement] at h
  by_cases hlen : t.length = 256 - distinctCount raw
  · rw [if_pos hlen] at h; simp at h
  · rw [if_neg hlen] at h
    have hmem := List.mem_of_find?_eq_some h
    have hp := List.find?_some h
    simp only [Bool.and_eq_true, Bool.not_eq_true', decide_eq_false_iff_not] at hp
    exact ⟨hp.1, hp.2, by simpa using List.mem_range.mp hmem, hlen⟩

lemma distinctCount_eq_card (l : List Nat) : distinctCount l = l.toFinset.card := by
  rw [distinctCount, List.card_toFinset]

lemma length_le_of_nodup_lt {l : List Nat} {n : Nat} (hnd : l.Nodup)
    (hlt : ∀ x ∈ l, x < n) : l.length ≤ n := by
  have h1 : l.toFinset ⊆ Finset.range n := by
    intro x hx
    simp only [List.mem_toFinset] at hx
    exact Finset.mem_range.mpr (hlt x hx)
  have h2 := Finset.card_le_card h1
  rw [Finset.card_range] at h2
  rwa [List.toFinset_card_of_nodup hnd] at h2

lemma distinctCount_le {raw : List Nat} (hbytes : ∀ b ∈ raw, b < 256) :
    distinctCount raw ≤ 256 := by
  rw [distinctCount]
  exact length_le_of_nodup_lt (List.nodup_dedup raw)
    (fun x hx => hbytes x (List.mem_dedup.mp hx))

/-! ### Encoder-loop invariant and round trip -/

lemma flatten_map_singleton {α : Type} : ∀ l : List α, (l.map (fun b => [b])).flatten = l := by
  intro l
  induction l with
  | nil => rfl
  | cons a l ih => simp [ih]

lemma inv_init (raw : List Nat) (hbytes : ∀ b ∈ raw, b < 256) : Inv raw raw [] := by
  refine ⟨by simp [keysOf], by simp [keysOf], ?_, ?_, ?_⟩
  · have := distinctCount_le hbytes
    simpa using this
  · intro b _
    refine ⟨[b], ?_, ?_⟩
    · exact go_succ_none (rfl : lookup [] b = none)
    · intro x hx
      simp only [List.mem_singleton] at hx
      subst hx
      assumption
  · have hmap : raw.map (fun b => (get_original (List.length ([] : Table) + 1) b []).getD [])
        = raw.map (fun b => [b]) := by
      refine map_congr_mem ?_
      intro b _
      rw [go_succ_none (rfl : lookup [] b = none)]
      rfl
    rw [hmap, flatten_map_singleton]

lemma inv_step {raw buf : List Nat} {t : Table} {r : Nat} {p : Nat × Nat} {f : Nat}
    (hinv : Inv raw buf t) (hr : getReplacement t raw = some r)
    (hm : maxPair (pairFreqs buf) = some (p, f)) :
    Inv raw (replacePair p r buf) (dictInsert t r p) := by
  obtain ⟨hnd, hkeys, hlen, hexp, hflat⟩ := hinv
  obtain ⟨hrk, hrraw, hr256, hrne⟩ := getReplacement_some_spec hr
  have hpmem : (p.1, p.2) ∈ adjPairs buf := by
    have hm' := maxPair_mem hm
    have hkey : p ∈ (pairFreqs buf).map (·.1) := List.mem_map.mpr ⟨(p, f), hm', rfl⟩
    have hsub := foldl_bump_keys_subset (adjPairs buf) [] p hkey
    simpa using hsub
  obtain ⟨hp1, hp2⟩ := adjPairs_mem hpmem
  have hdi : dictInsert t r p = t ++ [(r, p)] := dictInsert_of_fresh hrk
  rw [hdi]
  have hkeys' : keysOf (t ++ [(r, p)]) = keysOf t ++ [r] := by simp [keysOf]
  have hlen' : (t ++ [(r, p)]).length = t.length + 1 := by simp
  obtain ⟨l1, h1, hsub1⟩ := hexp p.1 hp1
  obtain ⟨l2, h2, hsub2⟩ := hexp p.2 hp2
  have hr1 : r ∉ l1 := fun hx => hrraw (hsub1 _ hx)
  have hr2 : r ∉ l2 := fun hx => hrraw (hsub2 _ hx)
  have h1x : get_original (t.length + 1) p.1 (t ++ [(r, p)]) = some l1 :=
    go_extend h1 hrk hr1
  have h2x : get_original (t.length + 1) p.2 (t ++ [(r, p)]) = some l2 :=
    go_extend h2 hrk hr2
  have hrt : get_original (t.length + 1 + 1) r (t ++ [(r, p)]) = some (l1 ++ l2) := by
    rw [go_succ_some (lookup_append_self p hrk), h1x, h2x]
    rfl
  refine ⟨?_, ?_, ?_, ?_, ?_⟩
  · rw [hkeys']
    refine List.Nodup.append hnd (by simp) ?_
    intro a ha hb
    simp only [List.mem_singleton] at hb
    subst hb
    exact hrk ha
  · intro k hk
    rw [hkeys'] at hk
    rcases List.mem_append.mp hk with hk | hk
    · exact hkeys k hk
    · simp only [List.mem_singleton] at hk
      subst hk
      exact ⟨hrraw, hr256⟩
  · rw [hlen']
    have hd256 : distinctCount raw ≤ 256 := by omega
    omega
  · intro b hb
    rw [hlen']
    rcases replacePair_mem hb with rfl | hb
    · refine ⟨l1 ++ l2, hrt, ?_⟩
      intro x hx
      rcases List.mem_append.mp hx with hx | hx
      · exact hsub1 x hx
      · exact hsub2 x hx
    · obtain ⟨l, hgo, hsub⟩ := hexp b hb
      have hrl : r ∉ l := fun hx => hrraw (hsub _ hx)
      exact ⟨l, go_mono (go_extend hgo hrk hrl) (by omega), hsub⟩
  · rw [hlen']
    have hE : (fun b => (get_original (t.length + 1 + 1) b (t ++ [(r, p)])).getD []) r =
        (fun b => (get_original (t.length + 1 + 1) b (t ++ [(r, p)])).getD []) p.1 ++
        (fun b => (get_original (t.length + 1 + 1) b (t ++ [(r, p)])).getD []) p.2 := by
      simp only [hrt, go_mono h1x (Nat.le_succ _), go_mono h2x (Nat.le_succ _)]
      rfl
    rw [join_map_replacePair hE]
    have hmap : buf.map (fun b => (get_original (t.length + 1 + 1) b (t ++ [(r, p)])).getD [])
        = buf.map (fun b => (get_original (t.length + 1) b t).getD []) := by
      refine map_congr_mem ?_
      intro b hb
      obtain ⟨l, hgo, hsub⟩ := hexp b hb
      have hrl : r ∉ l := fun hx => hrraw (hsub _ hx)
      rw [hgo, go_mono (go_extend hgo hrk hrl) (Nat.le_succ _)]
    rw [hmap, hflat]

lemma compressLoop_inv : ∀ (fuel : Nat) {raw buf : List Nat} {t : Table} {lf : Nat}
    {bufF : List Nat} {tF : Table}, Inv raw buf t →
    compressLoop raw fuel buf t lf = some (bufF, tF) → Inv raw bufF tF := by
  intro fuel
  induction fuel with
  | zero => intro raw buf t lf bufF tF _ h; simp [compressLoop] at h
  | succ fuel ih =>
    intro raw buf t lf bufF tF hinv h
    rw [compressLoop] at h
    by_cases hlf : lf = 1
    · rw [if_pos hlf] at h
      obtain ⟨rfl, rfl⟩ : buf = bufF ∧ t = tF := by simpa using h
      exact hinv
    · rw [if_neg hlf] at h
      cases hr : getReplacement t raw with
      | none =>
        rw [hr] at h
        obtain ⟨rfl, rfl⟩ : buf = bufF ∧ t = tF := by simpa using h
        exact hinv
      | some r =>
        rw [hr] at h
        cases hm : maxPair (pairFreqs buf) with
        | none => rw [hm] at h; simp at h
        | some pf =>
          obtain ⟨p, f⟩ := pf
          rw [hm] at h
          exact ih (inv_step hinv hr hm) h

lemma expandPayload_eq {t : Table} {E : Nat → List Nat} :
    ∀ {buf : List Nat}, (∀ b ∈ buf, get_original 256 b t = some (E b)) →
    expandPayload t buf = some ((buf.map E).flatten) := by
  intro buf
  induction buf with
  | nil => intro _; rfl
  | cons b rest ih =>
    intro h
    rw [expandPayload, h b (by simp), ih fun x hx => h x (by simp [hx])]
    rfl

/-- C1.  Round trip: for every byte sequence whose compression succeeds (the
serialized entry count, checked against the one-octet limit of 255 during
serialization, never overflows on a successful run), decompressing the
produced artifact yields exactly the original bytes. -/
theorem compress_decompress_roundtrip (raw artifact : List Nat)
    (hbytes : ∀ b ∈ raw, b < 256) (hc : compress_binary raw = some artifact) :
    decompress_binary artifact = some raw := by
  rw [compress_binary, compress_binary_from] at hc
  cases hs : compressStateFrom [] raw with
  | none => rw [hs] at hc; simp at hc
  | some s =>
    obtain ⟨buf, t⟩ := s
    rw [hs] at hc
    have hc' : serializeState buf t = some artifact := hc
    rw [serializeState] at hc'
    by_cases hlen : t.length ≥ 256
    · rw [if_pos hlen] at hc'; simp at hc'
    · rw [if_neg hlen] at hc'
      have hart : artifact = t.length :: buf ++ serializeEntries t := by
        simpa using hc'.symm
      have hinv : Inv raw buf t := compressLoop_inv _ (inv_init raw hbytes) hs
      obtain ⟨hnd, hkeys, hlent, hexp, hflat⟩ := hinv
      have hrawne : raw ≠ [] := by
        rintro rfl
        have hnone : compressStateFrom [] [] = none := by decide
        rw [hnone] at hs
        exact absurd hs (by simp)
      have hd1 : 1 ≤ distinctCount raw := by
        rw [distinctCount]
        have hne : raw.dedup ≠ [] := by
          rw [Ne, List.dedup_eq_nil]
          exact hrawne
        exact List.length_pos.mpr hne
      have ht255 : t.length ≤ 255 := by omega
      subst hart
      have hser : (serializeEntries t).length = 3 * t.length := length_serializeEntries t
      have hcons : t.length :: buf ++ serializeEntries t
          = (t.length :: buf) ++ serializeEntries t := rfl
      have harith : ((t.length :: buf) ++ serializeEntries t).length - 3 * t.length
          = (t.length :: buf).length := by
        simp only [List.length_append, List.length_cons, hser]
        omega
      have hdrop : (t.length :: buf ++ serializeEntries t).drop
          ((t.length :: buf ++ serializeEntries t).length - 3 * t.length)
          = serializeEntries t := by
        rw [hcons, harith, List.drop_left]
      have hrec : reconstruct_dict (t.length :: buf ++ serializeEntries t) = some t := by
        show parseTable t.length ((t.length :: buf ++ serializeEntries t).drop
          ((t.length :: buf ++ serializeEntries t).length - 3 * t.length)) [] = some t
        rw [hdrop]
        have := parseTable_serialize t [] (by simpa using hnd)
        simpa using this
      have htake : ((t.length :: buf ++ serializeEntries t).take
          ((t.length :: buf ++ serializeEntries t).length - 3 * t.length)).drop 1 = buf := by
        rw [hcons, harith, List.take_left]
        rfl
      simp only [decompress_binary, hrec]
      rw [htake]
      have hEb : ∀ b ∈ buf,
          get_original 256 b t = some ((get_original (t.length + 1) b t).getD []) := by
        intro b hb
        obtain ⟨l, hgo, _⟩ := hexp b hb
        rw [hgo]
        exact go_mono hgo (by omega)
      rw [expandPayload_eq hEb, hflat]

/-- C1 witness: the worked three-byte example, compressed and decompressed. -/
theorem compress_decompress_roundtrip_witness :
    decompress_binary [2, 1, 0, 65, 65, 1, 0, 65] = some [65, 65, 65] :=
  compress_decompress_roundtrip [65, 65, 65] [2, 1, 0, 65, 65, 1, 0, 65]
    (by decide) (by decide)

/-- C2.  Degenerate input: the claim says the loop body never executes and the
artifact is `[0] ++ X`; in the code `last_pair_frequency` starts at 0, so the
loop body runs once, and `__max_pair` on the empty pair dict raises
`UnboundLocalError` (`max_pair` referenced before assignment, modelled as
`none`) — `compress_binary` crashes on inputs of length 0 or 1 and produces no
artifact at all. -/
theorem compress_degenerate_crash :
    compress_binary [] = none ∧ compress_binary [65] = none :=
  ⟨by decide, by decide⟩

/-- C3.  Allocator contract: under two invariants every reachable compression
state satisfies (distinct table keys, and a table that still fits inside the
256-value octet space), every octet the allocator returns is neither an
existing table key nor an octet of the original input, and it fails exactly
when the number of allocated codes equals 256 minus the number of distinct
octets of the original input. -/
theorem allocator_contract (t : Table) (raw : List Nat)
    (hnd : (keysOf t).Nodup) (hle : t.length + distinctCount raw ≤ 256) :
    (∀ r, getReplacement t raw = some r → r ∉ keysOf t ∧ r ∉ raw) ∧
    (getReplacement t raw = none ↔ t.length = 256 - distinctCount raw) := by
  constructor
  · intro r hr
    obtain ⟨h1, h2, _, _⟩ := getReplacement_some_spec hr
    exact ⟨h1, h2⟩
  · constructor
    · intro hnone
      by_contra hne
      rw [getReplacement, if_neg hne, List.find?_eq_none] at hnone
      have hall : ∀ b, b < 256 → b ∈ keysOf t ∨ b ∈ raw := by
        intro b hb
        have hnb := hnone b (List.mem_range.mpr hb)
        by_contra hcon
        push_neg at hcon
        apply hnb
        simp [hcon.1, hcon.2]
      have hsub : Finset.range 256 ⊆ (keysOf t).toFinset ∪ raw.toFinset := by
        intro b hb
        rcases hall b (Finset.mem_range.mp hb) with h | h
        · exact Finset.mem_union_left _ (List.mem_toFinset.mpr h)
        · exact Finset.mem_union_right _ (List.mem_toFinset.mpr h)
      have hcard := Finset.card_le_card hsub
      rw [Finset.card_range] at hcard
      have hcard2 : ((keysOf t).toFinset ∪ raw.toFinset).card ≤
          (keysOf t).toFinset.card + raw.toFinset.card := Finset.card_union_le _ _
      rw [List.toFinset_card_of_nodup hnd, ← distinctCount_eq_card] at hcard2
      have hkl : (keysOf t).length = t.length := by simp [keysOf]
      omega
    · intro heq
      rw [getReplacement, if_pos heq]

/-- C3 witness at the empty table and a one-byte input. -/
theorem allocator_contract_witness :
    (∀ r, getReplacement [] [65] = some r → r ∉ keysOf [] ∧ r ∉ [65]) ∧
    (getReplacement [] [65] = none ↔ ([] : Table).length = 256 - distinctCount [65]) :=
  allocator_contract [] [65] (by simp [keysOf]) (by decide)

/-- C4.  TableExhausted atomicity: when the allocator fails inside an
iteration, the loop returns immediately with the working buffer and table of
the previous iteration unchanged (the iteration's pair-frequency dict is never
consulted), and serialization still produces the well-formed artifact of that
retained state. -/
theorem table_exhausted_atomic (raw buf : List Nat) (t : Table) (lf fuel : Nat)
    (hlf : lf ≠ 1) (hex : getReplacement t raw = none) (hlen : t.length ≤ 255) :
    compressLoop raw (fuel + 1) buf t lf = some (buf, t) ∧
    serializeState buf t = some (t.length :: buf ++ serializeEntries t) := by
  constructor
  · rw [compressLoop, if_neg hlf, hex]
  · rw [serializeState, if_neg (by omega)]

set_option maxRecDepth 4096 in
/-- C4 witness: an input containing all 256 octet values exhausts the
allocator on the very first iteration and the artifact is `[0] ++ input`. -/
theorem table_exhausted_atomic_witness :
    compressLoop (List.range 256) 1 (List.range 256) [] 0 = some (List.range 256, []) ∧
    serializeState (List.range 256) [] = some (0 :: List.range 256 ++ serializeEntries []) :=
  table_exhausted_atomic (List.range 256) (List.range 256) [] 0 0
    (by decide) (by decide) (by decide)

/-- C5.  Terminal extra substitution: an iteration whose freshly computed
maximum pair frequency is 1 still allocates, inserts the table entry and
substitutes in the buffer, and only then does the loop exit, returning exactly
the post-substitution state. -/
theorem terminal_substitution (raw buf : List Nat) (t : Table) (lf fuel r : Nat)
    (p : Nat × Nat) (hlf : lf ≠ 1) (hr : getReplacement t raw = some r)
    (hm : maxPair (pairFreqs buf) = some (p, 1)) :
    compressLoop raw (fuel + 2) buf t lf =
      some (replacePair p r buf, dictInsert t r p) := by
  rw [compressLoop, if_neg hlf, hr, hm]
  show compressLoop raw (fuel + 1) (replacePair p r buf) (dictInsert t r p) 1 =
    some (replacePair p r buf, dictInsert t r p)
  rw [compressLoop, if_pos rfl]

/-- C5 witness: a two-byte buffer whose only pair occurs once. -/
theorem terminal_substitution_witness :
    compressLoop [65, 66] 2 [65, 66] [] 0 =
      some (replacePair (65, 66) 0 [65, 66], dictInsert [] 0 (65, 66)) :=
  terminal_substitution [65, 66] [65, 66] [] 0 0 0 (65, 66)
    (by decide) (by decide) (by decide)

/-- C6.  Arg-max tie-break: the chosen pair is an entry of the pair-frequency
dict whose count is the maximum; it sits at an index after which every entry
has a strictly smaller count (the last maximal entry wins, the effect of the
non-strict `>=` scan); and the dict lists the distinct adjacent pairs in
first-occurrence order with their occurrence counts. -/
theorem max_pair_argmax_tiebreak (buf : List Nat) (p : Nat × Nat) (f : Nat)
    (h : maxPair (pairFreqs buf) = some (p, f)) :
    (p, f) ∈ pairFreqs buf ∧
    f = maxCount (pairFreqs buf) ∧
    (∃ i, ∃ hi : i < (pairFreqs buf).length, (pairFreqs buf).get ⟨i, hi⟩ = (p, f) ∧
      ∀ j, ∀ hj : j < (pairFreqs buf).length, i < j →
        ((pairFreqs buf).get ⟨j, hj⟩).2 < f) ∧
    (pairFreqs buf).map (·.1) = dedupFirst (adjPairs buf) ∧
    (∀ e ∈ pairFreqs buf, e.2 = (adjPairs buf).count e.1) := by
  obtain ⟨hmax, hlast⟩ := maxPair_char h
  obtain ⟨hkeys, hcount⟩ := pairFreqs_spec buf
  exact ⟨maxPair_mem h, hmax, hlast, hkeys, hcount⟩

/-- C6 witness on the worked example buffer. -/
theorem max_pair_argmax_tiebreak_witness :
    ((65, 65), 2) ∈ pairFreqs [65, 65, 65] ∧
    2 = maxCount (pairFreqs [65, 65, 65]) ∧
    (∃ i, ∃ hi : i < (pairFreqs [65, 65, 65]).length,
      (pairFreqs [65, 65, 65]).get ⟨i, hi⟩ = ((65, 65), 2) ∧
      ∀ j, ∀ hj : j < (pairFreqs [65, 65, 65]).length, i < j →
        ((pairFreqs [65, 65, 65]).get ⟨j, hj⟩).2 < 2) ∧
    (pairFreqs [65, 65, 65]).map (·.1) = dedupFirst (adjPairs [65, 65, 65]) ∧
    (∀ e ∈ pairFreqs [65, 65, 65], e.2 = (adjPairs [65, 65, 65]).count e.1) :=
  max_pair_argmax_tiebreak [65, 65, 65] (65, 65) 2 (by decide)

/-- C7 counterexample: an artifact whose two trailer records carry the same
code octet.  Its first octet (the entry count) is 2, so the claim's payload
rule keeps only `artifact.length - 1 - 3 * 2 = 1` octet, the `65`, and
predicts the result `[65]`; the code sizes the payload from the reconstructed
dict, which has a single entry `0 -> (3, 4)`, so it expands the four octets
`[65, 0, 1, 2]` and returns `[65, 3, 4, 1, 2]`. -/
theorem decoder_payload_counterexample :
    decompress_binary [2, 65, 0, 1, 2, 0, 3, 4] = some [65, 3, 4, 1, 2] ∧
    decompress_binary [2, 65, 0, 1, 2, 0, 3, 4] ≠ some [65] :=
  ⟨by decide, by decide⟩

/-- C7 amended: the payload is exactly the octets strictly between offset 1
and the start of the trailer, whose length the decoder computes as the
artifact length minus three times the size of the reconstructed table (equal
to the entry-count octet exactly when the trailer's codes are pairwise
distinct), and whenever every payload octet has a terminating recursive
expansion the result is their in-order concatenation. -/
theorem decoder_semantics_amended (data : List Nat) (table : Table)
    (exps : List (List Nat))
    (hrec : reconstruct_dict data = some table)
    (hexp : List.Forall₂ (fun b l => get_original 256 b table = some l)
      ((data.take (data.length - 3 * table.length)).drop 1) exps) :
    decompress_binary data = some exps.flatten := by
  simp only [decompress_binary, hrec]
  revert hexp
  generalize (data.take (data.length - 3 * table.length)).drop 1 = payload
  intro hexp
  induction hexp with
  | nil => rfl
  | cons hbl hrest ih => rw [expandPayload, hbl, ih]; rfl

/-- C7 witness: a one-entry artifact whose payload octet is a table code. -/
theorem decoder_semantics_amended_witness :
    decompress_binary [1, 5, 5, 60, 61] = some (List.flatten [[60, 61]]) := by
  refine decoder_semantics_amended [1, 5, 5, 60, 61] [(5, 60, 61)] [[60, 61]]
    (by decide) ?_
  show List.Forall₂ _ [5] _
  exact List.Forall₂.cons (by decide) List.Forall₂.nil

/-- C8.  Cross-call state: `compress_binary` never resets the
`self.__lookup_table` instance field, so compressing a second input on the
same compressor instance starts from the previous call's final table and
serializes its stale entries too; the artifact differs from the one a fresh
compressor produces for the same input. -/
theorem cross_call_state_leak :
    compressStateFrom [] [65, 65, 65] = some ([1], [(0, 65, 65), (1, 0, 65)]) ∧
    compress_binary_from [(0, 65, 65), (1, 0, 65)] [66, 66, 66] =
      some [4, 3, 0, 65, 65, 1, 0, 65, 2, 66, 66, 3, 2, 66] ∧
    compress_binary [66, 66, 66] = some [2, 1, 0, 66, 66, 1, 0, 66] ∧
    compress_binary_from [(0, 65, 65), (1, 0, 65)] [66, 66, 66] ≠
      compress_binary [66, 66, 66] :=
  ⟨by decide, by decide, by decide, by decide⟩

/-- C9.  Working-buffer invariant: it holds initially (the buffer is the raw
input and the table empty), one loop iteration preserves it, and consequently
the freshly allocated code of an iteration never already occurs in the working
buffer at the moment of its substitution. -/
theorem buffer_invariant (raw buf : List Nat) (t : Table) (r : Nat)
    (p : Nat × Nat) (f : Nat) (hinv : BufInv raw buf t)
    (hr : getReplacement t raw = some r)
    (hm : maxPair (pairFreqs buf) = some (p, f)) :
    BufInv raw raw [] ∧
    BufInv raw (replacePair p r buf) (dictInsert t r p) ∧ r ∉ buf := by
  obtain ⟨hrk, hrraw, _, _⟩ := getReplacement_some_spec hr
  refine ⟨fun b hb => Or.inl hb, ?_, ?_⟩
  · intro b hb
    rcases replacePair_mem hb with rfl | hb
    · right
      rw [dictInsert_of_fresh hrk, keysOf_append]
      simp [keysOf]
    · rcases hinv b hb with h | h
      · exact Or.inl h
      · right
        rw [dictInsert_of_fresh hrk, keysOf_append]
        exact List.mem_append.mpr (Or.inl h)
  · intro hrb
    rcases hinv r hrb with h | h
    · exact hrraw h
    · exact hrk h

/-- C9 witness on the first iteration of the worked example. -/
theorem buffer_invariant_witness :
    BufInv [65, 65, 65] [65, 65, 65] [] ∧
    BufInv [65, 65, 65] (replacePair (65, 65) 0 [65, 65, 65]) (dictInsert [] 0 (65, 65)) ∧
    0 ∉ [65, 65, 65] :=
  buffer_invariant [65, 65, 65] [65, 65, 65] [] 0 (65, 65) 2
    (fun b hb => Or.inl hb) (by decide) (by decide)

/-- C10.  Truncated artifact: decoding fails (the source raises `IndexError`)
whenever the artifact is empty or shorter than three times its first octet,
and on artifacts at least that long the trailer parsing itself always
succeeds. -/
theorem truncated_artifact (data : List Nat) :
    ((data = [] ∨ data.length < 3 * data.headD 0) → decompress_binary data = none) ∧
    (data ≠ [] → 3 * data.headD 0 ≤ data.length → (reconstruct_dict data).isSome) := by
  constructor
  · rintro (rfl | hshort)
    · rfl
    · cases data with
      | nil => rfl
      | cons b0 rest =>
        simp only [List.headD_cons] at hshort
        have hchunk : ((b0 :: rest).drop ((b0 :: rest).length - 3 * b0)).length
            < 3 * b0 := by
          simp only [List.length_drop]
          omega
        have hrec : reconstruct_dict (b0 :: rest) = none := by
          show parseTable b0 ((b0 :: rest).drop ((b0 :: rest).length - 3 * b0)) [] = none
          exact parseTable_none_of_short _ _ _ hchunk
        simp [decompress_binary, hrec]
  · intro hne hlong
    cases data with
    | nil => exact absurd rfl hne
    | cons b0 rest =>
      simp only [List.headD_cons] at hlong
      have hchunk : ((b0 :: rest).drop ((b0 :: rest).length - 3 * b0)).length
          = 3 * b0 := by
        simp only [List.length_drop]
        omega
      show (parseTable b0 ((b0 :: rest).drop ((b0 :: rest).length - 3 * b0)) []).isSome
      exact parseTable_isSome_of_length _ _ _ hchunk

/-- C10 witness: a two-octet artifact claiming five trailer records fails to
decode; the minimal artifact `[0]` parses its (empty) trailer. -/
theorem truncated_artifact_witness :
    decompress_binary [5, 1] = none ∧ (reconstruct_dict [0]).isSome :=
  ⟨(truncated_artifact [5, 1]).1 (Or.inr (by decide)),
   (truncated_artifact [0]).2 (by decide) (by decide)⟩

end XIP
